import Mathlib

/-!
Verification of `traintools.py` from the train-modelling repository.

The Python source is shallowly embedded: pandas DataFrames of timetable rows
become `List Row`; the networkx `DiGraph` becomes an explicit structure holding
an insertion-ordered, duplicate-free node list and an edge list keyed by
(source, target); Python integer division `//` and modulo `%` on non-negative
operands become `Int` euclidean division (they agree for positive divisors);
`math.ceil` on a float ratio becomes `Int.ceil` on `ℚ`.
-/

namespace TrainTools

/-- A vertex of the timetable graph: `(station, minute-of-day)`,
mirroring `TrainStop = Tuple[int, int]` in the source. -/
abbrev TrainStop : Type := ℤ × ℕ

/-- One timetable row, mirroring the columns of the ingested schedule
DataFrame: train number, first/second class demand, start/end station,
departure/arrival time (minutes past midnight, hence `ℕ`).
`end_` stands for the source column `end` (a Lean keyword). -/
structure Row where
  train_number : ℤ
  first_class : ℚ
  second_class : ℚ
  start : ℤ
  end_ : ℤ
  departure_time : ℕ
  arrival_time : ℕ
deriving DecidableEq

/-- `to_minutes_past_midnight` from the source:
`hours = time // 100; minutes = time % 100; return 60 * hours + minutes`. -/
def to_minutes_past_midnight (time : ℤ) : ℤ :=
  60 * (time / 100) + time % 100

/-- `to_regular_time` from the source:
`hours = time // 60; minutes = time % 60; return hours * 100 + minutes`. -/
def to_regular_time (time : ℤ) : ℤ :=
  (time / 60) * 100 + time % 60

/-- A dynamically-typed Python value, as far as the time-conversion functions
can observe one: the data flowing through this program is ints, floats and
strings.  `type(x) == int` holds exactly on the `vint` constructor. -/
inductive PyVal where
  | vint (n : ℤ)
  | vfloat (q : ℚ)
  | vstr (s : String)
deriving DecidableEq

/-- Python's `type(x) == int` test used by the assertions in the source. -/
def PyVal.isInt : PyVal → Bool
  | .vint _ => true
  | _ => false

/-- `to_minutes_past_midnight` including its
`assert type(time) == int, "The time must be an integer!"` guard:
a non-int argument raises (modelled as `Except.error`). -/
def to_minutes_past_midnight_checked (v : PyVal) : Except String ℤ :=
  match v with
  | .vint n => .ok (to_minutes_past_midnight n)
  | _ => .error "The time must be an integer!"

/-- `to_regular_time` including its integer-type assertion. -/
def to_regular_time_checked (v : PyVal) : Except String ℤ :=
  match v with
  | .vint n => .ok (to_regular_time n)
  | _ => .error "The time must be an integer!"

/-- `minimum_number_of_trains` from the source:
`math.ceil(max(row['first_class']/train_type[0], row['second_class']/train_type[1]))`,
with Python float division embedded as division in `ℚ`. -/
def minimum_number_of_trains (row : Row) (train_type : ℤ × ℤ) : ℤ :=
  ⌈max (row.first_class / (train_type.1 : ℚ)) (row.second_class / (train_type.2 : ℚ))⌉

/-- Division with Python's `ZeroDivisionError` made explicit. -/
def checked_div (a b : ℚ) : Except String ℚ :=
  if b = 0 then .error "division by zero" else .ok (a / b)

/-- `minimum_number_of_trains` with its two divisions routed through
`checked_div`, in source evaluation order, so that the division-by-zero
branch is explicit. -/
def minimum_number_of_trains_checked (row : Row) (train_type : ℤ × ℤ) : Except String ℤ :=
  match checked_div row.first_class (train_type.1 : ℚ),
        checked_div row.second_class (train_type.2 : ℚ) with
  | .ok min_first_class, .ok min_second_class => .ok ⌈max min_first_class min_second_class⌉
  | .error e, _ => .error e
  | _, .error e => .error e

/-- `df.loc[start:stop, col] += v` on the zero-based integer index of the
occupancy table: add `v` at every list position whose index lies in the
inclusive range `[start, stop]` (pandas label slicing includes both ends;
an empty or reversed range adds nothing).  `i` is the index of the head. -/
def addRange (v : ℤ) (start stop : ℕ) : List ℤ → ℕ → List ℤ
  | [], _ => []
  | x :: xs, i =>
      (if start ≤ i ∧ i ≤ stop then x + v else x) :: addRange v start stop xs (i + 1)

/-- `minimum_number_of_trains_at_time_t` from the source: a zero-initialised
table of `60*24+1` entries; for every row of the schedule, its
`minimum_number_of_trains` count is added to all entries in the inclusive
index range `[departure_time, arrival_time]`. -/
def minimum_number_of_trains_at_time_t (schedule : List Row) (train_type : ℤ × ℤ) :
    List ℤ :=
  schedule.foldl
    (fun df row =>
      addRange (minimum_number_of_trains row train_type)
        row.departure_time row.arrival_time df 0)
    (List.replicate (60 * 24 + 1) 0)

/-- One `trains[row[0]] = pd.concat([trains[row[0]], row])` step of
`create_trains_dict`: append the row to the sub-table of key `k`, creating
the entry at the end when absent (`defaultdict(pd.DataFrame)` starts a
missing key from the empty table, and dict insertion order is
first-appearance order). -/
def dict_insert (d : List (ℤ × List Row)) (k : ℤ) (r : Row) : List (ℤ × List Row) :=
  match d with
  | [] => [(k, [r])]
  | (k', rs) :: rest =>
      if k' = k then (k', rs ++ [r]) :: rest else (k', rs) :: dict_insert rest k r

/-- Python `d[k]` on the `defaultdict`: the sub-table of key `k`,
empty when the key is absent. -/
def dict_get (d : List (ℤ × List Row)) (k : ℤ) : List Row :=
  match d with
  | [] => []
  | (k', rs) :: rest => if k' = k then rs else dict_get rest k

/-- `create_trains_dict` from the source: partition the schedule's rows by
train number (`row[0]`, the first column) into an insertion-ordered mapping,
appending each row to its train's sub-table in encounter order. -/
def create_trains_dict (schedule : List Row) : List (ℤ × List Row) :=
  schedule.foldl (fun trains row => dict_insert trains row.train_number row) []

/-- One row of `create_network_schedule`'s output: first/second class demand
plus the two composite `(station, time)` keys. -/
structure NetRow where
  first_class : ℚ
  second_class : ℚ
  start : TrainStop
  end_ : TrainStop
deriving DecidableEq

/-- A row's start key `(start station, departure time)`, as built by
`zip(df.start, df.departure_time)` in `create_network_schedule`. -/
def startKey (r : Row) : TrainStop := (r.start, r.departure_time)

/-- A row's end key `(end station, arrival time)`, as built by
`zip(df.end, df.arrival_time)` in `create_network_schedule`. -/
def endKey (r : Row) : TrainStop := (r.end_, r.arrival_time)

/-- `create_network_schedule` from the source: project the schedule onto
demand columns and composite start/end keys. -/
def create_network_schedule (df : List Row) : List NetRow :=
  df.map fun r => ⟨r.first_class, r.second_class, startKey r, endKey r⟩

/-- A networkx `DiGraph` as this program uses one: an insertion-ordered,
duplicate-free node list, and an edge list keyed by `(source, target)` whose
attribute payload is the `first_class`/`second_class` pair. -/
structure DiGraph where
  nodes : List TrainStop
  edges : List (TrainStop × TrainStop × ℚ × ℚ)
deriving DecidableEq

/-- `G.add_node(v)`: append the node when not already present. -/
def add_node (G : DiGraph) (v : TrainStop) : DiGraph :=
  if v ∈ G.nodes then G else { G with nodes := G.nodes ++ [v] }

/-- networkx `G.has_edge(u, v)`. -/
def hasEdge (G : DiGraph) (u v : TrainStop) : Bool :=
  G.edges.any fun e => decide (e.1 = u ∧ e.2.1 = v)

/-- `G.add_edge(u, v, first_class=fc, second_class=sc)`: missing endpoints are
inserted as nodes; a fresh `(u, v)` edge is appended, an existing one keeps
its place but has its attributes overwritten. -/
def add_edge (G : DiGraph) (u v : TrainStop) (fc sc : ℚ) : DiGraph :=
  let G1 := add_node (add_node G u) v
  if hasEdge G1 u v then
    { G1 with
        edges := G1.edges.map fun e =>
          if e.1 = u ∧ e.2.1 = v then (u, v, fc, sc) else e }
  else
    { G1 with edges := G1.edges ++ [(u, v, fc, sc)] }

/-- `nx.from_pandas_edgelist(..., source='start', target='end',
edge_attr=['first_class', 'second_class'], create_using=nx.DiGraph)`:
one `add_edge` per row of the network schedule, in row order. -/
def from_edgelist (net : List NetRow) : DiGraph :=
  net.foldl (fun G nr => add_edge G nr.start nr.end_ nr.first_class nr.second_class)
    ⟨[], []⟩

/-- First-appearance deduplication: Python dict keys in insertion order. -/
def firstDedup {α : Type} [DecidableEq α] (l : List α) : List α :=
  l.foldl (fun acc x => if x ∈ acc then acc else acc ++ [x]) []

/-- Python tuple comparison `(station, time) <= (station', time')`, the order
used by `list.sort()` in `find_all_stops_per_station`. -/
def stopLE (a b : TrainStop) : Prop :=
  a.1 < b.1 ∨ (a.1 = b.1 ∧ a.2 ≤ b.2)

instance : DecidableRel stopLE := fun a b =>
  decidable_of_iff (a.1 < b.1 ∨ (a.1 = b.1 ∧ a.2 ≤ b.2)) Iff.rfl

instance : IsTotal TrainStop stopLE := ⟨by intro a b; unfold stopLE; omega⟩

instance : IsTrans TrainStop stopLE := ⟨by intro a b c; unfold stopLE; omega⟩

/-- The value `nodes_per_station[s]` after `find_all_stops_per_station`:
the station's stops from `G.nodes`, sorted ascending by `(station, time)`. -/
def sorted_stops (G : DiGraph) (s : ℤ) : List TrainStop :=
  List.insertionSort stopLE (G.nodes.filter fun v => decide (v.1 = s))

/-- `find_all_stops_per_station` from the source: group the graph's nodes by
station — a `defaultdict(list)` filled in `G.nodes` order, so keys appear in
first-appearance order and each group holds that station's stops — then sort
each group ascending by `(station, time)`. -/
def find_all_stops_per_station (G : DiGraph) : List (ℤ × List TrainStop) :=
  (firstDedup (G.nodes.map Prod.fst)).map fun s => (s, sorted_stops G s)

/-- `find_staring_trainstops` from the source (the name's typo included):
`stops[0]` of each station's chronologically sorted stop list. -/
def find_staring_trainstops (G : DiGraph) : List TrainStop :=
  (find_all_stops_per_station G).map fun p => p.2.headI

/-- `find_ending_trainstops` from the source: `stops[-1]` of each station's
chronologically sorted stop list. -/
def find_ending_trainstops (G : DiGraph) : List TrainStop :=
  (find_all_stops_per_station G).map fun p => p.2.getLastI

/-- `connect_stationary_nodes` from the source: for every station, add a
zero-capacity directed edge from each stop to the next stop in time at that
station (`for index, stop in enumerate(stops[:-1]): G.add_edge(stop,
stops[index+1], first_class=0, second_class=0)`). -/
def connect_stationary_nodes (G : DiGraph) : DiGraph :=
  (find_all_stops_per_station G).foldl
    (fun G1 p => (p.2.zip p.2.tail).foldl (fun G2 q => add_edge G2 q.1 q.2 0 0) G1) G

/-- The flattened list of consecutive same-station stop pairs that
`connect_stationary_nodes` feeds to `add_edge`, in order. -/
def stationaryPairs (G : DiGraph) : List (TrainStop × TrainStop) :=
  (find_all_stops_per_station G).flatMap fun p => p.2.zip p.2.tail

/-- `graph_from_schedule` from the source: travel edges from the network
schedule, then the stationary connections. -/
def graph_from_schedule (df : List Row) : DiGraph :=
  connect_stationary_nodes (from_edgelist (create_network_schedule df))

end TrainTools

namespace TrainTools

/-- C4: for every integer `t` in `[0, 2359]` with minute part `t % 100 ≤ 59`,
`to_regular_time (to_minutes_past_midnight t) = t`; in particular
`to_minutes_past_midnight 930 = 570` and `to_regular_time 570 = 930`. -/
theorem clock_roundtrip :
    (∀ t : ℤ, 0 ≤ t → t ≤ 2359 → t % 100 ≤ 59 →
      to_regular_time (to_minutes_past_midnight t) = t) ∧
    to_minutes_past_midnight 930 = 570 ∧ to_regular_time 570 = 930 := by
  refine ⟨fun t h0 h1 h2 => ?_, by decide, by decide⟩
  unfold to_minutes_past_midnight to_regular_time
  omega

/-- Witness for `clock_roundtrip` at `t = 930`. -/
theorem clock_roundtrip_witness :
    to_regular_time (to_minutes_past_midnight 930) = 930 :=
  clock_roundtrip.1 930 (by decide) (by decide) (by decide)

/-- C9: for every non-negative integer `m` (no upper bound),
`to_minutes_past_midnight (to_regular_time m) = m`. -/
theorem minutes_roundtrip (m : ℤ) (_h : 0 ≤ m) :
    to_minutes_past_midnight (to_regular_time m) = m := by
  unfold to_minutes_past_midnight to_regular_time
  omega

/-- Witness for `minutes_roundtrip` at `m = 1500` (a value ≥ 1440). -/
theorem minutes_roundtrip_witness :
    to_minutes_past_midnight (to_regular_time 1500) = 1500 :=
  minutes_roundtrip 1500 (by decide)

/-- C6: both time conversions raise exactly on non-integer inputs and return
normally on every integer input. -/
theorem time_conversion_invalid_input (v : PyVal) :
    ((∃ e, to_minutes_past_midnight_checked v = .error e) ↔ v.isInt = false) ∧
    ((∃ e, to_regular_time_checked v = .error e) ↔ v.isInt = false) ∧
    (∀ n : ℤ, to_minutes_past_midnight_checked (.vint n) = .ok (to_minutes_past_midnight n) ∧
      to_regular_time_checked (.vint n) = .ok (to_regular_time n)) := by
  refine ⟨?_, ?_, fun n => ⟨rfl, rfl⟩⟩ <;>
    cases v <;>
      simp [to_minutes_past_midnight_checked, to_regular_time_checked, PyVal.isInt]

/-- C1: for non-negative demands and positive capacities,
`minimum_number_of_trains` returns `⌈max (first_class/c1) (second_class/c2)⌉`,
the least integer `n` with `n * c1 ≥ first_class` and `n * c2 ≥ second_class`;
in particular it returns `0` when both demands are `0`. -/
theorem minimum_number_of_trains_spec (row : Row) (c1 c2 : ℤ)
    (_hf : 0 ≤ row.first_class) (_hs : 0 ≤ row.second_class)
    (hc1 : 0 < c1) (hc2 : 0 < c2) :
    minimum_number_of_trains row (c1, c2) =
      ⌈max (row.first_class / (c1 : ℚ)) (row.second_class / (c2 : ℚ))⌉ ∧
    row.first_class ≤ (minimum_number_of_trains row (c1, c2) : ℚ) * (c1 : ℚ) ∧
    row.second_class ≤ (minimum_number_of_trains row (c1, c2) : ℚ) * (c2 : ℚ) ∧
    (∀ m : ℤ, row.first_class ≤ (m : ℚ) * (c1 : ℚ) → row.second_class ≤ (m : ℚ) * (c2 : ℚ) →
      minimum_number_of_trains row (c1, c2) ≤ m) ∧
    (row.first_class = 0 → row.second_class = 0 →
      minimum_number_of_trains row (c1, c2) = 0) := by
  have hc1' : (0 : ℚ) < (c1 : ℚ) := by exact_mod_cast hc1
  have hc2' : (0 : ℚ) < (c2 : ℚ) := by exact_mod_cast hc2
  set q1 := row.first_class / (c1 : ℚ) with hq1
  set q2 := row.second_class / (c2 : ℚ) with hq2
  have hceil : max q1 q2 ≤ ((⌈max q1 q2⌉ : ℤ) : ℚ) := Int.le_ceil _
  refine ⟨rfl, ?_, ?_, ?_, ?_⟩
  · have : q1 ≤ ((minimum_number_of_trains row (c1, c2) : ℤ) : ℚ) :=
      le_trans (le_max_left q1 q2) hceil
    exact (div_le_iff₀ hc1').mp this
  · have : q2 ≤ ((minimum_number_of_trains row (c1, c2) : ℤ) : ℚ) :=
      le_trans (le_max_right q1 q2) hceil
    exact (div_le_iff₀ hc2').mp this
  · intro m hm1 hm2
    have h1 : q1 ≤ (m : ℚ) := (div_le_iff₀ hc1').mpr hm1
    have h2 : q2 ≤ (m : ℚ) := (div_le_iff₀ hc2').mpr hm2
    exact Int.ceil_le.mpr (max_le h1 h2)
  · intro hf0 hs0
    simp [minimum_number_of_trains, hf0, hs0]

/-- Witness for `minimum_number_of_trains_spec` at demand `(150, 40)` and
capacity pair `(100, 50)` (the spec's example). -/
theorem minimum_number_of_trains_spec_witness :
    (0 : ℤ) < 100 ∧
    (150 : ℚ) ≤ (minimum_number_of_trains ⟨1, 150, 40, 1, 2, 0, 0⟩ (100, 50) : ℚ) *
      (((100 : ℤ) : ℚ)) :=
  ⟨by decide,
   (minimum_number_of_trains_spec ⟨1, 150, 40, 1, 2, 0, 0⟩ 100 50
      (by decide) (by decide) (by decide) (by decide)).2.1⟩

/-- C8: when both capacity components are non-zero, neither division in
`minimum_number_of_trains` can fail: the checked variant returns `.ok` with
exactly the unchecked function's integer value. -/
theorem minimum_number_of_trains_no_div_error (row : Row) (t : ℤ × ℤ)
    (h1 : t.1 ≠ 0) (h2 : t.2 ≠ 0) :
    minimum_number_of_trains_checked row t = .ok (minimum_number_of_trains row t) := by
  have h1' : (t.1 : ℚ) ≠ 0 := Int.cast_ne_zero.mpr h1
  have h2' : (t.2 : ℚ) ≠ 0 := Int.cast_ne_zero.mpr h2
  simp [minimum_number_of_trains_checked, checked_div, h1', h2', minimum_number_of_trains]

/-- Witness for `minimum_number_of_trains_no_div_error` at capacity `(100, 50)`. -/
theorem minimum_number_of_trains_no_div_error_witness :
    minimum_number_of_trains_checked ⟨1, 150, 40, 1, 2, 0, 0⟩ (100, 50) =
      .ok (minimum_number_of_trains ⟨1, 150, 40, 1, 2, 0, 0⟩ (100, 50)) :=
  minimum_number_of_trains_no_div_error ⟨1, 150, 40, 1, 2, 0, 0⟩ (100, 50)
    (by decide) (by decide)

theorem addRange_length (v : ℤ) (s e : ℕ) :
    ∀ (l : List ℤ) (i : ℕ), (addRange v s e l i).length = l.length := by
  intro l
  induction l with
  | nil => intro i; rfl
  | cons x xs ih => intro i; simp [addRange, ih]

theorem addRange_getD (v : ℤ) (s e : ℕ) :
    ∀ (l : List ℤ) (i j : ℕ), j < l.length →
      (addRange v s e l i).getD j 0 =
        if s ≤ i + j ∧ i + j ≤ e then l.getD j 0 + v else l.getD j 0 := by
  intro l
  induction l with
  | nil => intro i j hj; simp at hj
  | cons x xs ih =>
      intro i j hj
      cases j with
      | zero => simp [addRange]
      | succ j =>
          have hj' : j < xs.length := by simpa using hj
          have := ih (i + 1) j hj'
          simp only [addRange, List.getD_cons_succ]
          rw [this]
          have harith : i + 1 + j = i + (j + 1) := by omega
          rw [harith]

theorem min_trains_table_length (t : ℤ × ℤ) (schedule : List Row) :
    ∀ init : List ℤ,
      (schedule.foldl
        (fun df row =>
          addRange (minimum_number_of_trains row t)
            row.departure_time row.arrival_time df 0) init).length = init.length := by
  induction schedule with
  | nil => intro init; rfl
  | cons r rest ih =>
      intro init
      simp only [List.foldl_cons]
      rw [ih, addRange_length]

theorem min_trains_table_getD (t : ℤ × ℤ) (m : ℕ) :
    ∀ (schedule : List Row) (init : List ℤ), m < init.length →
      (schedule.foldl
        (fun df row =>
          addRange (minimum_number_of_trains row t)
            row.departure_time row.arrival_time df 0) init).getD m 0 =
        init.getD m 0 +
          ((schedule.filter fun r =>
              decide (r.departure_time ≤ m ∧ m ≤ r.arrival_time)).map
            (fun r => minimum_number_of_trains r t)).sum := by
  intro schedule
  induction schedule with
  | nil => intro init hm; simp
  | cons r rest ih =>
      intro init hm
      simp only [List.foldl_cons]
      have hm' : m < (addRange (minimum_number_of_trains r t)
          r.departure_time r.arrival_time init 0).length := by
        rw [addRange_length]; exact hm
      rw [ih _ hm', addRange_getD _ _ _ _ _ _ hm]
      rw [List.filter_cons]
      by_cases hcond : r.departure_time ≤ m ∧ m ≤ r.arrival_time
      · rw [if_pos (by simpa using hcond), if_pos (by simpa using hcond)]
        simp only [List.map_cons, List.sum_cons]
        ring
      · rw [if_neg (by simpa using hcond), if_neg (by simpa using hcond)]

/-- C2: for a schedule whose rows have `departure_time ≤ arrival_time ≤ 1440`
and a positive capacity pair, `minimum_number_of_trains_at_time_t` returns a
table of exactly 1441 entries, whose entry `m` is the sum of
`minimum_number_of_trains` over exactly the rows whose inclusive range
`[departure_time, arrival_time]` contains `m` (0 when no row covers `m`,
additive over overlapping rows). -/
theorem minimum_number_of_trains_at_time_t_spec (schedule : List Row) (t : ℤ × ℤ)
    (_hc1 : 0 < t.1) (_hc2 : 0 < t.2)
    (_hrows : ∀ r ∈ schedule, r.departure_time ≤ r.arrival_time ∧ r.arrival_time ≤ 1440) :
    (minimum_number_of_trains_at_time_t schedule t).length = 1441 ∧
    ∀ m : ℕ, m ≤ 1440 →
      (minimum_number_of_trains_at_time_t schedule t).getD m 0 =
        ((schedule.filter fun r =>
            decide (r.departure_time ≤ m ∧ m ≤ r.arrival_time)).map
          (fun r => minimum_number_of_trains r t)).sum := by
  constructor
  · rw [minimum_number_of_trains_at_time_t, min_trains_table_length,
      List.length_replicate]
  · intro m hm
    have hm' : m < (List.replicate (60 * 24 + 1) (0 : ℤ)).length := by
      rw [List.length_replicate]; omega
    rw [minimum_number_of_trains_at_time_t, min_trains_table_getD t m schedule _ hm']
    have hz : (List.replicate (60 * 24 + 1) (0 : ℤ)).getD m 0 = 0 := by
      rw [List.getD_eq_getElem?_getD, List.getElem?_replicate]
      split <;> rfl
    rw [hz, zero_add]

/-- Witness for `minimum_number_of_trains_at_time_t_spec` on the spec's
two-row example (`[100,200]` and `[150,250]`, unit counts 1) at minute 175. -/
theorem minimum_number_of_trains_at_time_t_spec_witness :
    (minimum_number_of_trains_at_time_t
        [⟨1, 1, 1, 1, 2, 100, 200⟩, ⟨2, 1, 1, 2, 3, 150, 250⟩] (1, 1)).getD 175 0 =
      (([⟨1, 1, 1, 1, 2, 100, 200⟩, ⟨2, 1, 1, 2, 3, 150, 250⟩].filter fun r =>
          decide (r.departure_time ≤ 175 ∧ 175 ≤ r.arrival_time)).map
        (fun r => minimum_number_of_trains r (1, 1))).sum :=
  (minimum_number_of_trains_at_time_t_spec
      [⟨1, 1, 1, 1, 2, 100, 200⟩, ⟨2, 1, 1, 2, 3, 150, 250⟩] (1, 1)
      (by decide) (by decide) (by decide)).2 175 (by decide)

theorem dict_insert_keys_mem (k x : ℤ) (r : Row) :
    ∀ d : List (ℤ × List Row),
      (x ∈ (dict_insert d k r).map Prod.fst ↔ x ∈ d.map Prod.fst ∨ x = k) := by
  intro d
  induction d with
  | nil => simp [dict_insert]
  | cons p rest ih =>
      obtain ⟨k', rs⟩ := p
      by_cases hk : k' = k
      · subst hk
        simp [dict_insert]
        tauto
      · simp only [dict_insert, if_neg hk, List.map_cons, List.mem_cons, ih]
        tauto

theorem dict_insert_keys_nodup (k : ℤ) (r : Row) :
    ∀ d : List (ℤ × List Row),
      (d.map Prod.fst).Nodup → ((dict_insert d k r).map Prod.fst).Nodup := by
  intro d
  induction d with
  | nil => intro _; simp [dict_insert]
  | cons p rest ih =>
      obtain ⟨k', rs⟩ := p
      intro hnd
      simp only [List.map_cons, List.nodup_cons] at hnd
      by_cases hk : k' = k
      · subst hk
        simpa [dict_insert] using hnd
      · simp only [dict_insert, if_neg hk, List.map_cons, List.nodup_cons]
        refine ⟨?_, ih hnd.2⟩
        rw [dict_insert_keys_mem]
        push_neg
        exact ⟨hnd.1, hk⟩

theorem dict_insert_sum (k : ℤ) (r : Row) :
    ∀ d : List (ℤ × List Row),
      ((dict_insert d k r).map (fun p => p.2.length)).sum =
        (d.map (fun p => p.2.length)).sum + 1 := by
  intro d
  induction d with
  | nil => simp [dict_insert]
  | cons p rest ih =>
      obtain ⟨k', rs⟩ := p
      by_cases hk : k' = k
      · subst hk
        simp [dict_insert]
        omega
      · simp only [dict_insert, if_neg hk, List.map_cons, List.sum_cons, ih]
        omega

theorem dict_get_insert_same (k : ℤ) (r : Row) :
    ∀ d : List (ℤ × List Row), dict_get (dict_insert d k r) k = dict_get d k ++ [r] := by
  intro d
  induction d with
  | nil => simp [dict_insert, dict_get]
  | cons p rest ih =>
      obtain ⟨k', rs⟩ := p
      by_cases hk : k' = k
      · subst hk
        simp [dict_insert, dict_get]
      · simp [dict_insert, dict_get, if_neg hk, ih]

theorem dict_get_insert_other (k k' : ℤ) (r : Row) (hne : k' ≠ k) :
    ∀ d : List (ℤ × List Row), dict_get (dict_insert d k r) k' = dict_get d k' := by
  intro d
  induction d with
  | nil =>
      have : k ≠ k' := fun h => hne h.symm
      simp [dict_insert, dict_get, this]
  | cons p rest ih =>
      obtain ⟨k'', rs⟩ := p
      by_cases hk : k'' = k
      · subst hk
        have : k'' ≠ k' := fun h => hne h.symm
        simp [dict_insert, dict_get, this]
      · by_cases hk2 : k'' = k'
        · subst hk2
          simp [dict_insert, if_neg hk, dict_get]
        · simp [dict_insert, if_neg hk, dict_get, hk2, ih]

theorem dict_get_of_mem :
    ∀ d : List (ℤ × List Row), (d.map Prod.fst).Nodup →
      ∀ p ∈ d, dict_get d p.1 = p.2 := by
  intro d
  induction d with
  | nil => intro _ p hp; simp at hp
  | cons q rest ih =>
      obtain ⟨k', rs⟩ := q
      intro hnd p hp
      simp only [List.map_cons, List.nodup_cons] at hnd
      rcases List.mem_cons.mp hp with hp | hp
      · subst hp
        simp [dict_get]
      · have hne : k' ≠ p.1 := by
          intro h
          exact hnd.1 (h ▸ List.mem_map_of_mem Prod.fst hp)
        simp only [dict_get, if_neg hne]
        exact ih hnd.2 p hp

theorem create_foldl_keys_mem (x : ℤ) :
    ∀ (df : List Row) (d : List (ℤ × List Row)),
      (x ∈ ((df.foldl (fun t r => dict_insert t r.train_number r) d).map Prod.fst) ↔
        x ∈ d.map Prod.fst ∨ x ∈ df.map Row.train_number) := by
  intro df
  induction df with
  | nil => intro d; simp
  | cons r rest ih =>
      intro d
      simp only [List.foldl_cons, ih, dict_insert_keys_mem, List.map_cons, List.mem_cons]
      tauto

theorem create_foldl_keys_nodup :
    ∀ (df : List Row) (d : List (ℤ × List Row)),
      (d.map Prod.fst).Nodup →
      ((df.foldl (fun t r => dict_insert t r.train_number r) d).map Prod.fst).Nodup := by
  intro df
  induction df with
  | nil => intro d h; exact h
  | cons r rest ih =>
      intro d h
      exact ih _ (dict_insert_keys_nodup _ _ _ h)

theorem create_foldl_sum :
    ∀ (df : List Row) (d : List (ℤ × List Row)),
      ((df.foldl (fun t r => dict_insert t r.train_number r) d).map
        (fun p => p.2.length)).sum =
        (d.map (fun p => p.2.length)).sum + df.length := by
  intro df
  induction df with
  | nil => intro d; simp
  | cons r rest ih =>
      intro d
      simp only [List.foldl_cons, ih, dict_insert_sum, List.length_cons]
      omega

theorem create_foldl_get (k : ℤ) :
    ∀ (df : List Row) (d : List (ℤ × List Row)),
      dict_get (df.foldl (fun t r => dict_insert t r.train_number r) d) k =
        dict_get d k ++ df.filter (fun r => decide (r.train_number = k)) := by
  intro df
  induction df with
  | nil => intro d; simp
  | cons r rest ih =>
      intro d
      simp only [List.foldl_cons, ih, List.filter_cons]
      by_cases hk : r.train_number = k
      · subst hk
        rw [if_pos (by simp), dict_get_insert_same]
        simp
      · rw [if_neg (by simpa using hk), dict_get_insert_other _ _ _ (fun h => hk h.symm)]

/-- C5: `create_trains_dict` on a schedule of `N` rows with `K` distinct train
numbers yields exactly `K` entries with pairwise-distinct keys (exactly the
train numbers occurring in the schedule), whose row counts sum to `N`; each
entry's sub-table is precisely the subsequence of schedule rows carrying that
train number, in original relative order, and every schedule row appears in
the sub-table of its own train number. -/
theorem create_trains_dict_spec (df : List Row) :
    (create_trains_dict df).length = (df.map Row.train_number).toFinset.card ∧
    ((create_trains_dict df).map Prod.fst).Nodup ∧
    (∀ k : ℤ, k ∈ (create_trains_dict df).map Prod.fst ↔ k ∈ df.map Row.train_number) ∧
    ((create_trains_dict df).map (fun p => p.2.length)).sum = df.length ∧
    (∀ p ∈ create_trains_dict df,
      p.2 = df.filter (fun r => decide (r.train_number = p.1))) ∧
    (∀ r ∈ df, r ∈ dict_get (create_trains_dict df) r.train_number) := by
  have hnodup : ((create_trains_dict df).map Prod.fst).Nodup :=
    create_foldl_keys_nodup df [] (by simp)
  have hmem : ∀ x : ℤ,
      (x ∈ (create_trains_dict df).map Prod.fst ↔ x ∈ df.map Row.train_number) := by
    intro x
    rw [create_trains_dict, create_foldl_keys_mem]
    simp
  have hget : ∀ k : ℤ, dict_get (create_trains_dict df) k =
      df.filter (fun r => decide (r.train_number = k)) := by
    intro k
    rw [create_trains_dict, create_foldl_get]
    rfl
  refine ⟨?_, hnodup, hmem, ?_, ?_, ?_⟩
  · have h1 : (create_trains_dict df).length =
        ((create_trains_dict df).map Prod.fst).length := (List.length_map _ _).symm
    rw [h1, ← List.toFinset_card_of_nodup hnodup]
    congr 1
    ext x
    simp only [List.mem_toFinset]
    exact hmem x
  · rw [create_trains_dict, create_foldl_sum]
    simp
  · intro p hp
    rw [← hget p.1]
    exact (dict_get_of_mem _ hnodup p hp).symm
  · intro r hr
    rw [hget r.train_number]
    exact List.mem_filter.mpr ⟨hr, by simp⟩

/-- Witness for `create_trains_dict_spec` on a three-row schedule with two
distinct train numbers. -/
theorem create_trains_dict_spec_witness :
    (⟨7, 1, 1, 1, 2, 100, 200⟩ : Row) ∈
      dict_get
        (create_trains_dict
          [⟨7, 1, 1, 1, 2, 100, 200⟩, ⟨8, 2, 2, 2, 3, 150, 250⟩,
           ⟨7, 3, 3, 2, 1, 300, 400⟩]) 7 :=
  (create_trains_dict_spec
      [⟨7, 1, 1, 1, 2, 100, 200⟩, ⟨8, 2, 2, 2, 3, 150, 250⟩,
       ⟨7, 3, 3, 2, 1, 300, 400⟩]).2.2.2.2.2
    ⟨7, 1, 1, 1, 2, 100, 200⟩ (by decide)

theorem add_node_edges (G : DiGraph) (v : TrainStop) : (add_node G v).edges = G.edges := by
  unfold add_node
  split <;> rfl

theorem add_node_nodes_step (G : DiGraph) (v : TrainStop) :
    (add_node G v).nodes = if v ∈ G.nodes then G.nodes else G.nodes ++ [v] := by
  unfold add_node
  split <;> simp_all

theorem add_node_of_mem {G : DiGraph} {v : TrainStop} (h : v ∈ G.nodes) :
    add_node G v = G := by
  simp [add_node, h]

theorem add_node_nodes_mem (G : DiGraph) (v x : TrainStop) :
    x ∈ (add_node G v).nodes ↔ x ∈ G.nodes ∨ x = v := by
  rw [add_node_nodes_step]
  by_cases h : v ∈ G.nodes
  · rw [if_pos h]
    constructor
    · exact Or.inl
    · rintro (hx | rfl)
      · exact hx
      · exact h
  · rw [if_neg h]
    simp

theorem add_node_nodes_nodup (G : DiGraph) (v : TrainStop) (h : G.nodes.Nodup) :
    (add_node G v).nodes.Nodup := by
  rw [add_node_nodes_step]
  by_cases hv : v ∈ G.nodes
  · rwa [if_pos hv]
  · rw [if_neg hv]
    simp [List.nodup_append, h, hv]

theorem add_edge_nodes_eq (G : DiGraph) (u v : TrainStop) (fc sc : ℚ) :
    (add_edge G u v fc sc).nodes = (add_node (add_node G u) v).nodes := by
  simp only [add_edge]
  split <;> rfl

theorem add_edge_nodes_of_mem (G : DiGraph) (u v : TrainStop) (fc sc : ℚ)
    (hu : u ∈ G.nodes) (hv : v ∈ G.nodes) :
    (add_edge G u v fc sc).nodes = G.nodes := by
  rw [add_edge_nodes_eq, add_node_of_mem hu, add_node_of_mem hv]

theorem hasEdge_false_iff (G : DiGraph) (u v : TrainStop) :
    hasEdge G u v = false ↔ ∀ e ∈ G.edges, ¬(e.1 = u ∧ e.2.1 = v) := by
  simp [hasEdge]

theorem add_edge_edges_of_fresh (G : DiGraph) (u v : TrainStop) (fc sc : ℚ)
    (h : ∀ e ∈ G.edges, ¬(e.1 = u ∧ e.2.1 = v)) :
    (add_edge G u v fc sc).edges = G.edges ++ [(u, v, fc, sc)] := by
  have he : (add_node (add_node G u) v).edges = G.edges := by
    rw [add_node_edges, add_node_edges]
  have h1 : hasEdge (add_node (add_node G u) v) u v = false := by
    rw [hasEdge_false_iff, he]
    exact h
  simp only [add_edge]
  rw [if_neg (by simp [h1]), he]

theorem add_edge_edges_mem (G : DiGraph) (u v : TrainStop) (fc sc : ℚ)
    (e : TrainStop × TrainStop × ℚ × ℚ) (he : e ∈ (add_edge G u v fc sc).edges) :
    e ∈ G.edges ∨ (e.1 = u ∧ e.2.1 = v) := by
  have hE : (add_node (add_node G u) v).edges = G.edges := by
    rw [add_node_edges, add_node_edges]
  simp only [add_edge] at he
  split at he
  · simp only [hE, List.mem_map] at he
    obtain ⟨e', he', heq⟩ := he
    by_cases hk : e'.1 = u ∧ e'.2.1 = v
    · rw [if_pos hk] at heq
      right
      rw [← heq]
      exact ⟨rfl, rfl⟩
    · rw [if_neg hk] at heq
      left
      rw [← heq]
      exact he'
  · rw [hE] at he
    rcases List.mem_append.mp he with h' | h'
    · exact Or.inl h'
    · right
      rw [List.mem_singleton.mp h']
      exact ⟨rfl, rfl⟩

theorem firstDedup_foldl_mem {α : Type} [DecidableEq α] (x : α) :
    ∀ (l acc : List α),
      (x ∈ l.foldl (fun acc y => if y ∈ acc then acc else acc ++ [y]) acc ↔
        x ∈ acc ∨ x ∈ l) := by
  intro l
  induction l with
  | nil => intro acc; simp
  | cons y t ih =>
      intro acc
      simp only [List.foldl_cons, ih, List.mem_cons]
      by_cases hy : y ∈ acc
      · rw [if_pos hy]
        constructor
        · tauto
        · rintro (h | rfl | h)
          · exact Or.inl h
          · exact Or.inl hy
          · exact Or.inr h
      · rw [if_neg hy]
        simp only [List.mem_append, List.mem_singleton]
        tauto

theorem firstDedup_foldl_nodup {α : Type} [DecidableEq α] :
    ∀ (l acc : List α), acc.Nodup →
      (l.foldl (fun acc y => if y ∈ acc then acc else acc ++ [y]) acc).Nodup := by
  intro l
  induction l with
  | nil => intro acc h; exact h
  | cons y t ih =>
      intro acc h
      simp only [List.foldl_cons]
      by_cases hy : y ∈ acc
      · rw [if_pos hy]
        exact ih acc h
      · rw [if_neg hy]
        exact ih _ (by simp [List.nodup_append, h, hy])

theorem firstDedup_mem {α : Type} [DecidableEq α] (x : α) (l : List α) :
    x ∈ firstDedup l ↔ x ∈ l := by
  rw [firstDedup, firstDedup_foldl_mem]
  simp

theorem firstDedup_nodup {α : Type} [DecidableEq α] (l : List α) :
    (firstDedup l).Nodup :=
  firstDedup_foldl_nodup l [] (by simp)

theorem foldl_add_edge_edges :
    ∀ (L : List (TrainStop × TrainStop × ℚ × ℚ)) (G : DiGraph),
      (∀ p ∈ L, ∀ e ∈ G.edges, ¬(e.1 = p.1 ∧ e.2.1 = p.2.1)) →
      L.Pairwise (fun p q => ¬(p.1 = q.1 ∧ p.2.1 = q.2.1)) →
      (L.foldl (fun G2 p => add_edge G2 p.1 p.2.1 p.2.2.1 p.2.2.2) G).edges =
        G.edges ++ L := by
  intro L
  induction L with
  | nil => intro G _ _; simp
  | cons p L' ih =>
      intro G hfresh hpw
      simp only [List.foldl_cons]
      have hstep : (add_edge G p.1 p.2.1 p.2.2.1 p.2.2.2).edges = G.edges ++ [p] :=
        add_edge_edges_of_fresh G p.1 p.2.1 p.2.2.1 p.2.2.2 (hfresh p (by simp))
      have hfresh' : ∀ q ∈ L', ∀ e ∈ (add_edge G p.1 p.2.1 p.2.2.1 p.2.2.2).edges,
          ¬(e.1 = q.1 ∧ e.2.1 = q.2.1) := by
        intro q hq e he
        rw [hstep] at he
        rcases List.mem_append.mp he with h' | h'
        · exact hfresh q (List.mem_cons_of_mem _ hq) e h'
        · rw [List.mem_singleton.mp h']
          exact (List.pairwise_cons.mp hpw).1 q hq
      rw [ih _ hfresh' (List.pairwise_cons.mp hpw).2, hstep, List.append_assoc,
        List.singleton_append]

theorem foldl_add_edge_nodes :
    ∀ (L : List (TrainStop × TrainStop × ℚ × ℚ)) (G : DiGraph),
      (∀ p ∈ L, p.1 ∈ G.nodes ∧ p.2.1 ∈ G.nodes) →
      (L.foldl (fun G2 p => add_edge G2 p.1 p.2.1 p.2.2.1 p.2.2.2) G).nodes = G.nodes := by
  intro L
  induction L with
  | nil => intro G _; rfl
  | cons p L' ih =>
      intro G hmem
      simp only [List.foldl_cons]
      have hstep : (add_edge G p.1 p.2.1 p.2.2.1 p.2.2.2).nodes = G.nodes :=
        add_edge_nodes_of_mem G p.1 p.2.1 p.2.2.1 p.2.2.2
          (hmem p (by simp)).1 (hmem p (by simp)).2
      have hmem' : ∀ q ∈ L', q.1 ∈ (add_edge G p.1 p.2.1 p.2.2.1 p.2.2.2).nodes ∧
          q.2.1 ∈ (add_edge G p.1 p.2.1 p.2.2.1 p.2.2.2).nodes := by
        intro q hq
        rw [hstep]
        exact hmem q (List.mem_cons_of_mem _ hq)
      rw [ih _ hmem', hstep]

theorem foldl_add_edge_edges_cases :
    ∀ (L : List (TrainStop × TrainStop × ℚ × ℚ)) (G : DiGraph)
      (e : TrainStop × TrainStop × ℚ × ℚ),
      e ∈ (L.foldl (fun G2 p => add_edge G2 p.1 p.2.1 p.2.2.1 p.2.2.2) G).edges →
      e ∈ G.edges ∨ ∃ p ∈ L, e.1 = p.1 ∧ e.2.1 = p.2.1 := by
  intro L
  induction L with
  | nil => intro G e he; exact Or.inl he
  | cons p L' ih =>
      intro G e he
      simp only [List.foldl_cons] at he
      rcases ih _ e he with h' | ⟨q, hq, hk⟩
      · rcases add_edge_edges_mem G p.1 p.2.1 p.2.2.1 p.2.2.2 e h' with h'' | h''
        · exact Or.inl h''
        · exact Or.inr ⟨p, by simp, h''⟩
      · exact Or.inr ⟨q, List.mem_cons_of_mem _ hq, hk⟩

theorem from_edgelist_nodes_aux :
    ∀ (net : List NetRow) (G : DiGraph),
      (net.foldl
        (fun G nr => add_edge G nr.start nr.end_ nr.first_class nr.second_class) G).nodes =
        (net.flatMap fun nr => [nr.start, nr.end_]).foldl
          (fun acc x => if x ∈ acc then acc else acc ++ [x]) G.nodes := by
  intro net
  induction net with
  | nil => intro G; rfl
  | cons nr rest ih =>
      intro G
      simp only [List.foldl_cons, List.flatMap_cons, List.foldl_append]
      rw [ih]
      congr 1
      rw [add_edge_nodes_eq, add_node_nodes_step, add_node_nodes_step]
      rcases Decidable.em (nr.start ∈ G.nodes) <;> rcases Decidable.em (nr.end_ ∈ G.nodes) <;>
        simp_all

theorem from_edgelist_nodes (net : List NetRow) :
    (from_edgelist net).nodes = firstDedup (net.flatMap fun nr => [nr.start, nr.end_]) := by
  rw [from_edgelist, from_edgelist_nodes_aux, firstDedup]
  congr 1
  funext acc x
  congr 1

theorem from_edgelist_foldl_form (df : List Row) :
    from_edgelist (create_network_schedule df) =
      (df.map fun r => (startKey r, endKey r, r.first_class, r.second_class)).foldl
        (fun G2 p => add_edge G2 p.1 p.2.1 p.2.2.1 p.2.2.2) ⟨[], []⟩ := by
  rw [from_edgelist, create_network_schedule, List.foldl_map, List.foldl_map]

theorem from_edgelist_edges (df : List Row)
    (hkeys : df.Pairwise fun r1 r2 =>
      ¬(startKey r1 = startKey r2 ∧ endKey r1 = endKey r2)) :
    (from_edgelist (create_network_schedule df)).edges =
      df.map fun r => (startKey r, endKey r, r.first_class, r.second_class) := by
  rw [from_edgelist_foldl_form, foldl_add_edge_edges]
  · rfl
  · intro p _ e he
    simp at he
  · rw [List.pairwise_map]
    exact hkeys

theorem from_edgelist_nodes_keys (df : List Row) :
    (from_edgelist (create_network_schedule df)).nodes =
      firstDedup (df.flatMap fun r => [startKey r, endKey r]) := by
  rw [from_edgelist_nodes, create_network_schedule, List.flatMap_map]

theorem connect_eq_foldl (G : DiGraph) :
    connect_stationary_nodes G =
      ((stationaryPairs G).map fun q => (q.1, q.2, (0 : ℚ), (0 : ℚ))).foldl
        (fun G2 p => add_edge G2 p.1 p.2.1 p.2.2.1 p.2.2.2) G := by
  rw [connect_stationary_nodes, stationaryPairs, List.foldl_map]
  have hflat : (find_all_stops_per_station G).flatMap (fun p => p.2.zip p.2.tail) =
      ((find_all_stops_per_station G).map (fun p => p.2.zip p.2.tail)).flatten := rfl
  rw [hflat, List.foldl_flatten, List.foldl_map]

theorem find_all_stops_fst (G : DiGraph) :
    (find_all_stops_per_station G).map Prod.fst = firstDedup (G.nodes.map Prod.fst) := by
  rw [find_all_stops_per_station, List.map_map]
  exact List.map_id _

theorem mem_find_all_stops (G : DiGraph) (p : ℤ × List TrainStop)
    (hp : p ∈ find_all_stops_per_station G) :
    p.2 = sorted_stops G p.1 ∧ p.1 ∈ G.nodes.map Prod.fst := by
  rw [find_all_stops_per_station] at hp
  obtain ⟨s, hs, heq⟩ := List.mem_map.mp hp
  cases heq
  exact ⟨rfl, (firstDedup_mem s _).mp hs⟩

theorem sorted_stops_mem (G : DiGraph) (s : ℤ) (v : TrainStop) :
    v ∈ sorted_stops G s ↔ v ∈ G.nodes ∧ v.1 = s := by
  rw [sorted_stops, (List.perm_insertionSort stopLE _).mem_iff]
  simp [List.mem_filter]

theorem sorted_stops_sorted (G : DiGraph) (s : ℤ) :
    (sorted_stops G s).Sorted stopLE :=
  List.sorted_insertionSort stopLE _

theorem sorted_stops_nodup (G : DiGraph) (s : ℤ) (hn : G.nodes.Nodup) :
    (sorted_stops G s).Nodup :=
  (List.perm_insertionSort stopLE _).nodup_iff.mpr (hn.filter _)

theorem sorted_stops_length (G : DiGraph) (s : ℤ) :
    (sorted_stops G s).length = (G.nodes.filter fun v => decide (v.1 = s)).length :=
  (List.perm_insertionSort stopLE _).length_eq

theorem sorted_stops_ne_nil (G : DiGraph) (s : ℤ) (hs : s ∈ G.nodes.map Prod.fst) :
    sorted_stops G s ≠ [] := by
  obtain ⟨v, hv, rfl⟩ := List.mem_map.mp hs
  exact List.ne_nil_of_mem ((sorted_stops_mem G v.1 v).mpr ⟨hv, rfl⟩)

theorem mem_zip_tail {l : List TrainStop} {q : TrainStop × TrainStop}
    (h : q ∈ l.zip l.tail) : q.1 ∈ l ∧ q.2 ∈ l := by
  obtain ⟨a, b⟩ := q
  have h' := List.of_mem_zip h
  exact ⟨h'.1, List.mem_of_mem_tail h'.2⟩

theorem nodup_zip_tail : ∀ {l : List TrainStop}, l.Nodup → (l.zip l.tail).Nodup := by
  intro l
  induction l with
  | nil => intro _; simp
  | cons a t ih =>
      intro h
      cases t with
      | nil => simp
      | cons b t' =>
          rw [show (a :: b :: t').tail = b :: t' from rfl, List.zip_cons_cons,
            List.nodup_cons]
          refine ⟨?_, ih (List.nodup_cons.mp h).2⟩
          intro hmem
          exact (List.nodup_cons.mp h).1 (List.of_mem_zip hmem).1

theorem stationaryPairs_mem (G : DiGraph) (q : TrainStop × TrainStop)
    (hq : q ∈ stationaryPairs G) :
    q.1 ∈ G.nodes ∧ q.2 ∈ G.nodes ∧ q.1.1 = q.2.1 := by
  rw [stationaryPairs, List.mem_flatMap] at hq
  obtain ⟨p, hp, hzip⟩ := hq
  have hm := mem_zip_tail hzip
  have hchar := mem_find_all_stops G p hp
  have h1 := (sorted_stops_mem G p.1 q.1).mp (hchar.1 ▸ hm.1)
  have h2 := (sorted_stops_mem G p.1 q.2).mp (hchar.1 ▸ hm.2)
  exact ⟨h1.1, h2.1, by rw [h1.2, h2.2]⟩

theorem nodup_flatMap_zip_tail :
    ∀ gs : List (ℤ × List TrainStop),
      (gs.map Prod.fst).Nodup →
      (∀ p ∈ gs, (p.2.zip p.2.tail).Nodup) →
      (∀ p ∈ gs, ∀ q ∈ p.2.zip p.2.tail, q.1.1 = p.1) →
      (gs.flatMap fun p => p.2.zip p.2.tail).Nodup := by
  intro gs
  induction gs with
  | nil => intro _ _ _; simp
  | cons g rest ih =>
      intro hkeys hnd hst
      rw [List.flatMap_cons, List.nodup_append]
      have hkeys' : (g.1 ∉ rest.map Prod.fst) ∧ (rest.map Prod.fst).Nodup := by
        rw [List.map_cons, List.nodup_cons] at hkeys
        exact hkeys
      refine ⟨hnd g (by simp), ih hkeys'.2
        (fun p hp => hnd p (List.mem_cons_of_mem _ hp))
        (fun p hp => hst p (List.mem_cons_of_mem _ hp)), ?_⟩
      intro q hq1 hq2
      rw [List.mem_flatMap] at hq2
      obtain ⟨p, hp, hqp⟩ := hq2
      have h1 : q.1.1 = g.1 := hst g (by simp) q hq1
      have h2 : q.1.1 = p.1 := hst p (List.mem_cons_of_mem _ hp) q hqp
      exact hkeys'.1 (h1 ▸ h2 ▸ List.mem_map_of_mem Prod.fst hp)

theorem stationaryPairs_nodup (G : DiGraph) (hn : G.nodes.Nodup) :
    (stationaryPairs G).Nodup := by
  rw [stationaryPairs]
  refine nodup_flatMap_zip_tail _ ?_ ?_ ?_
  · rw [find_all_stops_fst]
    exact firstDedup_nodup _
  · intro p hp
    rw [(mem_find_all_stops G p hp).1]
    exact nodup_zip_tail (sorted_stops_nodup G p.1 hn)
  · intro p hp q hq
    have hchar := mem_find_all_stops G p hp
    have hm := mem_zip_tail (hchar.1 ▸ hq)
    exact ((sorted_stops_mem G p.1 q.1).mp hm.1).2

theorem connect_stationary_nodes_nodes (G : DiGraph) :
    (connect_stationary_nodes G).nodes = G.nodes := by
  rw [connect_eq_foldl]
  apply foldl_add_edge_nodes
  intro p hp
  rw [List.mem_map] at hp
  obtain ⟨q, hq, rfl⟩ := hp
  have h := stationaryPairs_mem G q hq
  exact ⟨h.1, h.2.1⟩

theorem connect_stationary_edges (G : DiGraph) (hn : G.nodes.Nodup)
    (hcross : ∀ e ∈ G.edges, e.1.1 ≠ e.2.1.1) :
    (connect_stationary_nodes G).edges =
      G.edges ++ (stationaryPairs G).map fun q => (q.1, q.2, (0 : ℚ), (0 : ℚ)) := by
  rw [connect_eq_foldl]
  apply foldl_add_edge_edges
  · intro p hp e he hk
    rw [List.mem_map] at hp
    obtain ⟨q, hq, rfl⟩ := hp
    have hq' := stationaryPairs_mem G q hq
    apply hcross e he
    rw [hk.1, hk.2]
    exact hq'.2.2
  · rw [List.pairwise_map]
    have hnd := stationaryPairs_nodup G hn
    exact hnd.imp fun hab hk => hab (Prod.ext hk.1 hk.2)

/-- C10: `connect_stationary_nodes` leaves the graph's vertex set unchanged,
and every edge it adds connects two vertices already present before the
call. -/
theorem connect_stationary_nodes_frame (G : DiGraph) :
    (connect_stationary_nodes G).nodes = G.nodes ∧
    ∀ e ∈ (connect_stationary_nodes G).edges, e ∉ G.edges →
      e.1 ∈ G.nodes ∧ e.2.1 ∈ G.nodes := by
  refine ⟨connect_stationary_nodes_nodes G, ?_⟩
  intro e he hne
  rw [connect_eq_foldl] at he
  rcases foldl_add_edge_edges_cases _ _ e he with h | ⟨p, hp, hk⟩
  · exact absurd h hne
  · rw [List.mem_map] at hp
    obtain ⟨q, hq, rfl⟩ := hp
    have hq' := stationaryPairs_mem G q hq
    constructor
    · rw [hk.1]
      exact hq'.1
    · rw [hk.2]
      exact hq'.2.1

/-- Witness for `connect_stationary_nodes_frame`: the stationary edge added
between the two stops of station 1 connects two pre-existing vertices. -/
theorem connect_stationary_nodes_frame_witness :
    ((1 : ℤ), (5 : ℕ)) ∈ (DiGraph.mk [((1 : ℤ), (5 : ℕ)), ((1 : ℤ), (10 : ℕ))] []).nodes ∧
    ((1 : ℤ), (10 : ℕ)) ∈ (DiGraph.mk [((1 : ℤ), (5 : ℕ)), ((1 : ℤ), (10 : ℕ))] []).nodes :=
  (connect_stationary_nodes_frame ⟨[((1 : ℤ), (5 : ℕ)), ((1 : ℤ), (10 : ℕ))], []⟩).2
    (((1 : ℤ), (5 : ℕ)), ((1 : ℤ), (10 : ℕ)), (0 : ℚ), (0 : ℚ)) (by decide) (by decide)

theorem zip_map_self {α β : Type} (l : List α) (f : α → β) :
    l.zip (l.map f) = l.map fun a => (a, f a) := by
  nth_rewrite 1 [← List.map_id l]
  rw [List.zip_map']
  rfl

theorem stopLE_time {a b : TrainStop} (h : stopLE a b) (hst : a.1 = b.1) :
    a.2 ≤ b.2 := by
  have h' : a.1 < b.1 ∨ (a.1 = b.1 ∧ a.2 ≤ b.2) := h
  omega

theorem headI_mem_le (l : List TrainStop) (hne : l ≠ []) (hs : l.Sorted stopLE) :
    l.headI ∈ l ∧ ∀ x ∈ l, stopLE l.headI x := by
  cases l with
  | nil => exact absurd rfl hne
  | cons a t =>
      refine ⟨by simp, ?_⟩
      intro x hx
      rcases List.mem_cons.mp hx with rfl | hx
      · exact Or.inr ⟨rfl, le_refl _⟩
      · exact (List.sorted_cons.mp hs).1 x hx

theorem getLastI_mem : ∀ l : List TrainStop, l ≠ [] → l.getLastI ∈ l := by
  intro l
  induction l with
  | nil => intro h; exact absurd rfl h
  | cons a t ih =>
      intro _
      cases t with
      | nil => simp [List.getLastI]
      | cons b t' =>
          rw [List.getLastI_eq_getLast?, List.getLast?_cons_cons,
            ← List.getLastI_eq_getLast?]
          exact List.mem_cons_of_mem _ (ih (by simp))

theorem getLastI_le : ∀ l : List TrainStop, l.Sorted stopLE →
    ∀ x ∈ l, stopLE x l.getLastI := by
  intro l
  induction l with
  | nil => intro _ x hx; simp at hx
  | cons a t ih =>
      intro hs x hx
      cases t with
      | nil =>
          rw [List.mem_singleton] at hx
          subst hx
          exact Or.inr ⟨rfl, le_refl _⟩
      | cons b t' =>
          rw [List.getLastI_eq_getLast?, List.getLast?_cons_cons,
            ← List.getLastI_eq_getLast?]
          rcases List.mem_cons.mp hx with rfl | hx'
          · exact (List.sorted_cons.mp hs).1 _ (getLastI_mem (b :: t') (by simp))
          · exact ih (List.sorted_cons.mp hs).2 x hx'

/-- C7: `find_staring_trainstops` and `find_ending_trainstops` return one stop
per station, in the iteration order of `find_all_stops_per_station`'s
grouping; the returned stop belongs to that station's stop list, lies at that
station, and is time-minimal (respectively time-maximal) among the station's
stops. -/
theorem find_staring_ending_trainstops_spec (G : DiGraph) :
    (find_staring_trainstops G).length = (find_all_stops_per_station G).length ∧
    (find_ending_trainstops G).length = (find_all_stops_per_station G).length ∧
    (∀ pr ∈ (find_all_stops_per_station G).zip (find_staring_trainstops G),
      pr.2 ∈ pr.1.2 ∧ pr.2.1 = pr.1.1 ∧ ∀ v ∈ pr.1.2, pr.2.2 ≤ v.2) ∧
    (∀ pr ∈ (find_all_stops_per_station G).zip (find_ending_trainstops G),
      pr.2 ∈ pr.1.2 ∧ pr.2.1 = pr.1.1 ∧ ∀ v ∈ pr.1.2, v.2 ≤ pr.2.2) := by
  refine ⟨List.length_map _ _, List.length_map _ _, ?_, ?_⟩
  · intro pr hpr
    rw [find_staring_trainstops, zip_map_self, List.mem_map] at hpr
    obtain ⟨p, hp, rfl⟩ := hpr
    have hchar := mem_find_all_stops G p hp
    have hne : p.2 ≠ [] := by
      rw [hchar.1]
      exact sorted_stops_ne_nil G p.1 hchar.2
    have hs : p.2.Sorted stopLE := by
      rw [hchar.1]
      exact sorted_stops_sorted G p.1
    have hh := headI_mem_le p.2 hne hs
    have hstation : ∀ v ∈ p.2, v.1 = p.1 := by
      intro v hv
      exact ((sorted_stops_mem G p.1 v).mp (hchar.1 ▸ hv)).2
    refine ⟨hh.1, hstation _ hh.1, ?_⟩
    intro v hv
    exact stopLE_time (hh.2 v hv) (by rw [hstation _ hh.1, hstation v hv])
  · intro pr hpr
    rw [find_ending_trainstops, zip_map_self, List.mem_map] at hpr
    obtain ⟨p, hp, rfl⟩ := hpr
    have hchar := mem_find_all_stops G p hp
    have hne : p.2 ≠ [] := by
      rw [hchar.1]
      exact sorted_stops_ne_nil G p.1 hchar.2
    have hs : p.2.Sorted stopLE := by
      rw [hchar.1]
      exact sorted_stops_sorted G p.1
    have hl := getLastI_mem p.2 hne
    have hstation : ∀ v ∈ p.2, v.1 = p.1 := by
      intro v hv
      exact ((sorted_stops_mem G p.1 v).mp (hchar.1 ▸ hv)).2
    refine ⟨hl, hstation _ hl, ?_⟩
    intro v hv
    exact stopLE_time (getLastI_le p.2 hs v hv) (by rw [hstation _ hl, hstation v hv])

/-- Witness for `find_staring_ending_trainstops_spec`: a station with stops at
times 50, 100, 200 yields the time-50 stop as its starting train stop. -/
theorem find_staring_ending_trainstops_spec_witness :
    ((1 : ℤ), (50 : ℕ)) ∈
      [((1 : ℤ), (50 : ℕ)), ((1 : ℤ), (100 : ℕ)), ((1 : ℤ), (200 : ℕ))] ∧
    ((1 : ℤ), (50 : ℕ)).1 = (1 : ℤ) ∧
    ∀ v ∈ [((1 : ℤ), (50 : ℕ)), ((1 : ℤ), (100 : ℕ)), ((1 : ℤ), (200 : ℕ))],
      ((1 : ℤ), (50 : ℕ)).2 ≤ v.2 :=
  (find_staring_ending_trainstops_spec
      ⟨[((1 : ℤ), (100 : ℕ)), ((1 : ℤ), (50 : ℕ)), ((1 : ℤ), (200 : ℕ))], []⟩).2.2.1
    (((1 : ℤ), [((1 : ℤ), (50 : ℕ)), ((1 : ℤ), (100 : ℕ)), ((1 : ℤ), (200 : ℕ))]),
      ((1 : ℤ), (50 : ℕ)))
    (by decide)

theorem stationaryPairs_eq (G : DiGraph) :
    stationaryPairs G = (firstDedup (G.nodes.map Prod.fst)).flatMap
      (fun s => (sorted_stops G s).zip (sorted_stops G s).tail) := by
  rw [stationaryPairs, find_all_stops_per_station, List.flatMap_map]

theorem pairs_at_station (G : DiGraph) (s : ℤ) :
    ∀ q ∈ (sorted_stops G s).zip (sorted_stops G s).tail,
      q.1.1 = s ∧ q.2.1 = s := by
  intro q hq
  have hm := mem_zip_tail hq
  exact ⟨((sorted_stops_mem G s q.1).mp hm.1).2, ((sorted_stops_mem G s q.2).mp hm.2).2⟩

theorem stationaryPairs_filter (G : DiGraph) (s : ℤ) :
    (stationaryPairs G).filter (fun q => decide (q.1.1 = s ∧ q.2.1 = s)) =
      (sorted_stops G s).zip (sorted_stops G s).tail := by
  rw [stationaryPairs_eq]
  by_cases hs : s ∈ G.nodes.map Prod.fst
  · have hs' : s ∈ firstDedup (G.nodes.map Prod.fst) := (firstDedup_mem _ _).mpr hs
    obtain ⟨l1, l2, hsplit⟩ := List.append_of_mem hs'
    have hnd : (firstDedup (G.nodes.map Prod.fst)).Nodup := firstDedup_nodup _
    rw [hsplit] at hnd
    have hsl1 : s ∉ l1 := fun h => (List.nodup_append.mp hnd).2.2 h (by simp)
    have hsl2 : s ∉ l2 := (List.nodup_cons.mp (List.nodup_append.mp hnd).2.1).1
    rw [hsplit, List.flatMap_append, List.flatMap_cons, List.filter_append,
      List.filter_append]
    have h1 : (l1.flatMap fun s' =>
        (sorted_stops G s').zip (sorted_stops G s').tail).filter
          (fun q => decide (q.1.1 = s ∧ q.2.1 = s)) = [] := by
      rw [List.filter_eq_nil_iff]
      intro q hq
      rw [List.mem_flatMap] at hq
      obtain ⟨s', hs'', hq'⟩ := hq
      have hq1 := (pairs_at_station G s' q hq').1
      simp only [decide_eq_true_eq]
      intro hc
      have hss : s' = s := by rw [← hq1, hc.1]
      exact hsl1 (hss ▸ hs'')
    have h2 : (l2.flatMap fun s' =>
        (sorted_stops G s').zip (sorted_stops G s').tail).filter
          (fun q => decide (q.1.1 = s ∧ q.2.1 = s)) = [] := by
      rw [List.filter_eq_nil_iff]
      intro q hq
      rw [List.mem_flatMap] at hq
      obtain ⟨s', hs'', hq'⟩ := hq
      have hq1 := (pairs_at_station G s' q hq').1
      simp only [decide_eq_true_eq]
      intro hc
      have hss : s' = s := by rw [← hq1, hc.1]
      exact hsl2 (hss ▸ hs'')
    have h3 : ((sorted_stops G s).zip (sorted_stops G s).tail).filter
        (fun q => decide (q.1.1 = s ∧ q.2.1 = s)) =
        (sorted_stops G s).zip (sorted_stops G s).tail := by
      rw [List.filter_eq_self]
      intro q hq
      simp [pairs_at_station G s q hq]
    rw [h1, h2, h3, List.nil_append, List.append_nil]
  · have hstops : sorted_stops G s = [] := by
      rw [sorted_stops]
      have hfil : G.nodes.filter (fun v => decide (v.1 = s)) = [] := by
        rw [List.filter_eq_nil_iff]
        intro v hv
        simp only [decide_eq_true_eq]
        intro hc
        exact hs (hc ▸ List.mem_map_of_mem Prod.fst hv)
      rw [hfil]
      rfl
    rw [hstops]
    have hz : (([] : List TrainStop).zip ([] : List TrainStop).tail) = [] := rfl
    rw [hz, List.filter_eq_nil_iff]
    intro q hq
    rw [List.mem_flatMap] at hq
    obtain ⟨s', hs'', hq'⟩ := hq
    have hq1 := (pairs_at_station G s' q hq').1
    simp only [decide_eq_true_eq]
    intro hc
    have hss : s' = s := by rw [← hq1, hc.1]
    exact hs (hss ▸ (firstDedup_mem _ _).mp hs'')

theorem sorted_stops_congr {G1 G2 : DiGraph} (h : G1.nodes = G2.nodes) (s : ℤ) :
    sorted_stops G1 s = sorted_stops G2 s := by
  rw [sorted_stops, sorted_stops, h]

/-- C3 (amended): for a schedule whose rows have pairwise-distinct
`(start key, end key)` pairs and whose every row changes station,
`graph_from_schedule` yields: a vertex per distinct `(station, time)` start or
end key; one cross-station (travel) edge per row, carrying that row's
`first_class`/`second_class` attributes; and, per station, the same-station
(stationary) edges are exactly the zero-capacity edges between chronologically
consecutive stops of that station — `(stops at the station) - 1` of them. -/
theorem graph_from_schedule_spec (df : List Row)
    (hkeys : df.Pairwise fun r1 r2 =>
      ¬(startKey r1 = startKey r2 ∧ endKey r1 = endKey r2))
    (hse : ∀ r ∈ df, r.start ≠ r.end_) :
    (graph_from_schedule df).nodes.length =
      (df.flatMap fun r => [startKey r, endKey r]).toFinset.card ∧
    ((graph_from_schedule df).edges.filter fun e =>
      decide (e.1.1 ≠ e.2.1.1)).length = df.length ∧
    (∀ r ∈ df, (startKey r, endKey r, r.first_class, r.second_class) ∈
      (graph_from_schedule df).edges) ∧
    (∀ s : ℤ, ((graph_from_schedule df).edges.filter fun e =>
        decide (e.1.1 = s ∧ e.2.1.1 = s)) =
      ((sorted_stops (graph_from_schedule df) s).zip
        (sorted_stops (graph_from_schedule df) s).tail).map
          fun q => (q.1, q.2, (0 : ℚ), (0 : ℚ))) ∧
    (∀ s : ℤ, ((graph_from_schedule df).edges.filter fun e =>
        decide (e.1.1 = s ∧ e.2.1.1 = s)).length =
      ((graph_from_schedule df).nodes.filter fun v => decide (v.1 = s)).length - 1) := by
  have hAedges := from_edgelist_edges df hkeys
  have hAnodes := from_edgelist_nodes_keys df
  have hAnodup : (from_edgelist (create_network_schedule df)).nodes.Nodup := by
    rw [hAnodes]
    exact firstDedup_nodup _
  have hcross : ∀ e ∈ (from_edgelist (create_network_schedule df)).edges,
      e.1.1 ≠ e.2.1.1 := by
    intro e he
    rw [hAedges] at he
    obtain ⟨r, hr, rfl⟩ := List.mem_map.mp he
    exact hse r hr
  have hBnodes : (graph_from_schedule df).nodes =
      (from_edgelist (create_network_schedule df)).nodes :=
    connect_stationary_nodes_nodes _
  have hBedges : (graph_from_schedule df).edges =
      (from_edgelist (create_network_schedule df)).edges ++
        (stationaryPairs (from_edgelist (create_network_schedule df))).map
          fun q => (q.1, q.2, (0 : ℚ), (0 : ℚ)) :=
    connect_stationary_edges _ hAnodup hcross
  have h4 : ∀ s : ℤ, ((graph_from_schedule df).edges.filter fun e =>
      decide (e.1.1 = s ∧ e.2.1.1 = s)) =
      ((sorted_stops (graph_from_schedule df) s).zip
        (sorted_stops (graph_from_schedule df) s).tail).map
          fun q => (q.1, q.2, (0 : ℚ), (0 : ℚ)) := by
    intro s
    have ht : ((df.map fun r =>
        (startKey r, endKey r, r.first_class, r.second_class)).filter fun e =>
          decide (e.1.1 = s ∧ e.2.1.1 = s)) = [] := by
      rw [List.filter_eq_nil_iff]
      intro e he
      obtain ⟨r, hr, rfl⟩ := List.mem_map.mp he
      simp only [decide_eq_true_eq]
      intro hc
      exact hse r hr (by rw [show r.start = (startKey r).1 from rfl, hc.1,
        show r.end_ = (endKey r).1 from rfl, hc.2])
    have hcomp : ((fun e : TrainStop × TrainStop × ℚ × ℚ =>
          decide (e.1.1 = s ∧ e.2.1.1 = s)) ∘
        fun q : TrainStop × TrainStop => (q.1, q.2, (0 : ℚ), (0 : ℚ))) =
        fun q : TrainStop × TrainStop => decide (q.1.1 = s ∧ q.2.1 = s) := rfl
    rw [hBedges, List.filter_append, hAedges, ht, List.filter_map, hcomp,
      stationaryPairs_filter, List.nil_append, sorted_stops_congr hBnodes]
  refine ⟨?_, ?_, ?_, h4, ?_⟩
  · rw [hBnodes, hAnodes]
    have hnd := firstDedup_nodup (df.flatMap fun r => [startKey r, endKey r])
    rw [← List.toFinset_card_of_nodup hnd]
    congr 1
    ext x
    simp [firstDedup_mem]
  · rw [hBedges, List.filter_append]
    have ht : ((from_edgelist (create_network_schedule df)).edges.filter fun e =>
        decide (e.1.1 ≠ e.2.1.1)) =
        (from_edgelist (create_network_schedule df)).edges := by
      rw [List.filter_eq_self]
      intro e he
      simp only [decide_eq_true_eq]
      exact hcross e he
    have hst : (((stationaryPairs
        (from_edgelist (create_network_schedule df))).map
          fun q => (q.1, q.2, (0 : ℚ), (0 : ℚ))).filter fun e =>
            decide (e.1.1 ≠ e.2.1.1)) = [] := by
      rw [List.filter_eq_nil_iff]
      intro e he
      obtain ⟨q, hq, rfl⟩ := List.mem_map.mp he
      simp only [decide_eq_true_eq, not_not]
      exact (stationaryPairs_mem _ q hq).2.2
    rw [ht, hst, List.append_nil, hAedges, List.length_map]
  · intro r hr
    rw [hBedges, hAedges]
    exact List.mem_append_left _
      (List.mem_map_of_mem (fun r => (startKey r, endKey r, r.first_class, r.second_class)) hr)
  · intro s
    rw [h4 s, List.length_map, List.length_zip, List.length_tail]
    have hlen : (sorted_stops (graph_from_schedule df) s).length =
        ((graph_from_schedule df).nodes.filter fun v => decide (v.1 = s)).length :=
      sorted_stops_length _ s
    omega

/-- Counterexample to C3 as stated: on the schedule below — two identical
rows plus a row whose start and end stations coincide — the claim predicts 3
travel edges (one per row, with the rows' attributes) plus 1 stationary edge
at station 3, but the graph holds only 2 edges: the duplicated row collapses
to a single edge, and the station-3 travel edge's attributes are overwritten
to zero by the stationary pass, so the row's attributed travel edge is
absent. -/
theorem graph_from_schedule_spec_counterexample :
    (⟨2, 5, 5, 3, 3, 100, 200⟩ : Row) ∈
      ([⟨1, 10, 10, 1, 2, 100, 200⟩, ⟨1, 10, 10, 1, 2, 100, 200⟩,
        ⟨2, 5, 5, 3, 3, 100, 200⟩] : List Row) ∧
    (startKey ⟨2, 5, 5, 3, 3, 100, 200⟩, endKey ⟨2, 5, 5, 3, 3, 100, 200⟩,
        (5 : ℚ), (5 : ℚ)) ∉
      (graph_from_schedule
        [⟨1, 10, 10, 1, 2, 100, 200⟩, ⟨1, 10, 10, 1, 2, 100, 200⟩,
         ⟨2, 5, 5, 3, 3, 100, 200⟩]).edges ∧
    (graph_from_schedule
      [⟨1, 10, 10, 1, 2, 100, 200⟩, ⟨1, 10, 10, 1, 2, 100, 200⟩,
       ⟨2, 5, 5, 3, 3, 100, 200⟩]).edges.length = 2 ∧
    ([⟨1, 10, 10, 1, 2, 100, 200⟩, ⟨1, 10, 10, 1, 2, 100, 200⟩,
      ⟨2, 5, 5, 3, 3, 100, 200⟩] : List Row).length = 3 := by
  refine ⟨by decide, by decide, by decide, by decide⟩

/-- Witness for `graph_from_schedule_spec` on a two-row schedule
(Amsterdam→Rotterdam, Rotterdam→Roosendaal, the spec's end-to-end example). -/
theorem graph_from_schedule_spec_witness :
    (graph_from_schedule
      [⟨1, 10, 10, 1, 2, 540, 570⟩, ⟨1, 20, 20, 2, 3, 585, 615⟩]).nodes.length =
      (([⟨1, 10, 10, 1, 2, 540, 570⟩, ⟨1, 20, 20, 2, 3, 585, 615⟩] : List Row).flatMap
        fun r => [startKey r, endKey r]).toFinset.card :=
  (graph_from_schedule_spec
      [⟨1, 10, 10, 1, 2, 540, 570⟩, ⟨1, 20, 20, 2, 3, 585, 615⟩]
      (by decide) (by decide)).1

end TrainTools
